import Mathlib

/-!
Verification of the timeshift pattern parser (`New`) and evaluator (`Exec`)
against their natural-language specification.

The Go source consists of two pieces: a regular-expression based pattern
parser that produces a `TimeShift` value (one `partDef` per calendar unit),
and an evaluator that applies a `TimeShift` to a `time.Time`.

The embedding below models:
  * `time.Time` restricted to fixed-offset locations as `GoTime`
    (seconds since the Unix epoch plus a fixed offset in seconds);
    `time.Date`'s calendar-normalizing reconstruction, `Time.Date`,
    `Time.Clock`, `Time.AddDate`, `Time.Weekday`, `Time.Day` and
    `Time.YearDay` are modelled with proleptic-Gregorian arithmetic
    (the same calendar the Go standard library implements).  The source's
    `Exec` passes `0` for nanoseconds to `time.Date`, so sub-second values
    never influence a non-empty shift; the model therefore works at whole
    second granularity.
  * the anchored regular expression
    `^((?:\s*)([YMDWwhms])([\^\$]?)([+-]?)(\d+)(?:\s*))+$`
    as a deterministic scanner (`scanClause` / `tokenizeAux`); the regex
    is deterministic for acceptance because after each alternative the
    following character class is disjoint, so greedy scanning is exact.
  * `New` as `build` (the pure parsing logic) plus `New` (the cache
    wrapper; the process-global map guarded by a mutex becomes an explicit
    association-list state threaded through the call).
  * `strconv.ParseInt(s, 10, 32)` on a digit string as `parseIntClamp`:
    on over-range input Go returns the clamped bound `1<<31 - 1` together
    with an `ErrRange` that the source discards.
  * the distinct `fmt.Errorf` messages of `New` as distinct constructors
    of `NewErr`.
-/

namespace Timeshift

/-! ### Calendar arithmetic (model of the Go time package's civil calendar)

`dateToDays` maps a (possibly out-of-range) year/month/day triple to days
since 1970-01-01, normalizing exactly as Go's `time.Date` does: months are
floor-normalized into the year, and the day is a plain linear offset.
`civilFromDays` is the inverse decomposition used by `Time.Date()`. -/

def eraOf (z : Int) : Int := (z + 719468) / 146097

def doeOf (z : Int) : Int := z + 719468 - eraOf z * 146097

/-- Year of era (0..399) for a day of era (0..146096): the true year is one
of `doe / 366` and `doe / 366 + 1`; pick the latter iff its first day has
been reached (clamped to 399 for the final leap day of the era). -/
def yoeOfDoe (doe : Int) : Int :=
  if 365 * (doe / 366 + 1) + (doe / 366 + 1) / 4 - (doe / 366 + 1) / 100 ≤ doe ∧ doe / 366 ≤ 398
  then doe / 366 + 1 else doe / 366

def doyOfDoe (doe : Int) : Int :=
  doe - (365 * yoeOfDoe doe + yoeOfDoe doe / 4 - yoeOfDoe doe / 100)

def mpOfDoy (doy : Int) : Int := (5 * doy + 2) / 153

def monthOfMp (mp : Int) : Int := if mp < 10 then mp + 3 else mp - 9

/-- Decompose days-since-epoch into a proleptic-Gregorian (year, month, day). -/
def civilFromDays (z : Int) : Int × Int × Int :=
  (if monthOfMp (mpOfDoy (doyOfDoe (doeOf z))) ≤ 2
     then yoeOfDoe (doeOf z) + eraOf z * 400 + 1
     else yoeOfDoe (doeOf z) + eraOf z * 400,
   monthOfMp (mpOfDoy (doyOfDoe (doeOf z))),
   doyOfDoe (doeOf z) - (153 * mpOfDoy (doyOfDoe (doeOf z)) + 2) / 5 + 1)

/-- Days since epoch of (y, m, d) for m in 1..12; linear in d. -/
def daysFromCivil (y m d : Int) : Int :=
  (if m ≤ 2 then y - 1 else y) / 400 * 146097
    + 365 * ((if m ≤ 2 then y - 1 else y) % 400)
    + ((if m ≤ 2 then y - 1 else y) % 400) / 4
    - ((if m ≤ 2 then y - 1 else y) % 400) / 100
    + (153 * ((m + 9) % 12) + 2) / 5 + (d - 1) - 719468

/-- Days since epoch of an arbitrary (y, m, d): the month is first
floor-normalized into the year, as in Go's `time.Date`. -/
def dateToDays (y m d : Int) : Int :=
  daysFromCivil (y + (m - 1) / 12) ((m - 1) % 12 + 1) d

theorem doeOf_bounds (z : Int) :
    0 ≤ doeOf z ∧ doeOf z < 146097 ∧ z + 719468 = eraOf z * 146097 + doeOf z := by
  unfold doeOf eraOf; omega

theorem yoeOfDoe_bounds (doe : Int) (h0 : 0 ≤ doe) (h1 : doe < 146097) :
    0 ≤ yoeOfDoe doe ∧ yoeOfDoe doe ≤ 399 ∧
    365 * yoeOfDoe doe + yoeOfDoe doe / 4 - yoeOfDoe doe / 100 ≤ doe ∧
    doe - (365 * yoeOfDoe doe + yoeOfDoe doe / 4 - yoeOfDoe doe / 100) ≤ 365 := by
  unfold yoeOfDoe; split <;> omega

theorem mp_bounds (doy : Int) (h0 : 0 ≤ doy) (h1 : doy ≤ 365) :
    0 ≤ mpOfDoy doy ∧ mpOfDoy doy ≤ 11 ∧
    (153 * mpOfDoy doy + 2) / 5 ≤ doy ∧
    doy - (153 * mpOfDoy doy + 2) / 5 ≤ 30 := by
  unfold mpOfDoy; omega

theorem dateToDays_eq_of_bounds (y m d : Int) (h1 : 1 ≤ m) (h2 : m ≤ 12) :
    dateToDays y m d = daysFromCivil y m d := by
  unfold dateToDays
  rw [show y + (m - 1) / 12 = y by omega, show (m - 1) % 12 + 1 = m by omega]

theorem monthOfMp_bounds (mp : Int) (h2 : 0 ≤ mp) (h3 : mp ≤ 11) :
    1 ≤ monthOfMp mp ∧ monthOfMp mp ≤ 12 := by
  unfold monthOfMp; split <;> omega

theorem daysFromCivil_parts (era yoe mp dd : Int)
    (h0 : 0 ≤ yoe) (h1 : yoe ≤ 399) (h2 : 0 ≤ mp) (h3 : mp ≤ 11) :
    daysFromCivil (if monthOfMp mp ≤ 2 then yoe + era * 400 + 1 else yoe + era * 400)
        (monthOfMp mp) dd
      = era * 146097 + 365 * yoe + yoe / 4 - yoe / 100 + (153 * mp + 2) / 5 + (dd - 1)
        - 719468 := by
  unfold daysFromCivil monthOfMp; split_ifs <;> omega

/-- The decomposition is a right inverse of the normalizing reconstruction:
the calendar roundtrip at the heart of `time.Date` / `Time.Date()`. -/
theorem dateToDays_civilFromDays (z : Int) :
    dateToDays (civilFromDays z).1 (civilFromDays z).2.1 (civilFromDays z).2.2 = z := by
  have h1 := doeOf_bounds z
  have h2 := yoeOfDoe_bounds (doeOf z) h1.1 h1.2.1
  have h3 : doyOfDoe (doeOf z)
      = doeOf z - (365 * yoeOfDoe (doeOf z) + yoeOfDoe (doeOf z) / 4 - yoeOfDoe (doeOf z) / 100) :=
    rfl
  have h4 := mp_bounds (doyOfDoe (doeOf z)) (by omega) (by omega)
  have h5 := monthOfMp_bounds (mpOfDoy (doyOfDoe (doeOf z))) h4.1 h4.2.1
  unfold civilFromDays
  dsimp only
  rw [dateToDays_eq_of_bounds _ _ _ h5.1 h5.2,
    daysFromCivil_parts (eraOf z) (yoeOfDoe (doeOf z)) (mpOfDoy (doyOfDoe (doeOf z))) _
      h2.1 h2.2.1 h4.1 h4.2.1]
  omega

/-! ### Timestamps (model of `time.Time` with a fixed-offset location) -/

structure GoTime where
  secs : Int
  off : Int
deriving DecidableEq, Repr

def localOf (t : GoTime) : Int := t.secs + t.off

def epochDays (t : GoTime) : Int := localOf t / 86400

def sodOf (t : GoTime) : Int := localOf t % 86400

def yearOf (t : GoTime) : Int := (civilFromDays (epochDays t)).1
def monthOf (t : GoTime) : Int := (civilFromDays (epochDays t)).2.1
def dayOf (t : GoTime) : Int := (civilFromDays (epochDays t)).2.2
def hourOf (t : GoTime) : Int := sodOf t / 3600
def minuteOf (t : GoTime) : Int := sodOf t % 3600 / 60
def secondOf (t : GoTime) : Int := sodOf t % 60

/-- `time.Date(y, m, d, h, mi, s, 0, loc)` for a fixed-offset location. -/
def Date (y m d h mi s off : Int) : GoTime :=
  ⟨86400 * dateToDays y m d + 3600 * h + 60 * mi + s - off, off⟩

/-- `t.AddDate(dy, dm, dd)`: decompose, offset the calendar fields, and
rebuild with `time.Date`'s normalization. -/
def AddDate (t : GoTime) (dy dm dd : Int) : GoTime :=
  Date (yearOf t + dy) (monthOf t + dm) (dayOf t + dd) (hourOf t) (minuteOf t) (secondOf t) t.off

/-- `t.Weekday()`: 0 = Sunday; 1970-01-01 was a Thursday (= 4). -/
def Weekday (t : GoTime) : Int := (epochDays t + 4) % 7

/-- `t.Day()`. -/
def Day (t : GoTime) : Int := dayOf t

/-- `t.YearDay()`: 1-based day within the year. -/
def YearDay (t : GoTime) : Int := epochDays t - dateToDays (yearOf t) 1 1 + 1

/-- Convenience: a UTC timestamp from calendar components. -/
def utc (y m d h mi s : Int) : GoTime := Date y m d h mi s 0

theorem sod_split (t : GoTime) :
    0 ≤ sodOf t ∧ sodOf t < 86400 ∧ localOf t = 86400 * epochDays t + sodOf t := by
  unfold sodOf epochDays; omega

theorem clock_recon (t : GoTime) :
    3600 * hourOf t + 60 * minuteOf t + secondOf t = sodOf t := by
  unfold hourOf minuteOf secondOf; omega

/-- Rebuilding a timestamp from its own decomposition gives it back. -/
theorem Date_recon (t : GoTime) :
    Date (yearOf t) (monthOf t) (dayOf t) (hourOf t) (minuteOf t) (secondOf t) t.off = t := by
  have hd := dateToDays_civilFromDays (epochDays t)
  have hs := sod_split t
  have hc := clock_recon t
  unfold Date yearOf monthOf dayOf
  cases t with
  | mk secs off =>
    simp only [GoTime.mk.injEq, and_true]
    rw [hd]
    unfold localOf at hs
    simp only at hs hc
    omega

theorem dateToDays_day_linear (y m d k : Int) :
    dateToDays y m (d + k) = dateToDays y m d + k := by
  unfold dateToDays daysFromCivil; omega

theorem Date_day_shift (y m d k h mi s off : Int) :
    Date y m (d + k) h mi s off = ⟨(Date y m d h mi s off).secs + 86400 * k, off⟩ := by
  unfold Date
  simp only [GoTime.mk.injEq, and_true]
  rw [dateToDays_day_linear]
  ring

/-- `AddDate(0, 0, k)` is an exact shift of `k` days. -/
theorem AddDate_days (t : GoTime) (k : Int) :
    AddDate t 0 0 k = ⟨t.secs + 86400 * k, t.off⟩ := by
  unfold AddDate
  rw [add_zero, add_zero, Date_day_shift, Date_recon]

theorem Weekday_bounds (t : GoTime) : 0 ≤ Weekday t ∧ Weekday t < 7 := by
  unfold Weekday; omega

/-! ### The TimeShift data model (`partDef`, `TimeShift`) -/

structure partDef where
  active : Bool
  val : Int
  absolute : Bool
  fromBegin : Bool
  fromEnd : Bool
deriving DecidableEq, Repr

structure TimeShift where
  empty : Bool
  year : partDef
  month : partDef
  day : partDef
  week : partDef
  weekday : partDef
  hour : partDef
  minute : partDef
  second : partDef
deriving DecidableEq, Repr

/-- The Go zero value of `partDef`. -/
def inactivePD : partDef := ⟨false, 0, false, false, false⟩

/-- `&TimeShift{empty: false}`: the builder's starting state. -/
def zeroTS : TimeShift :=
  ⟨false, inactivePD, inactivePD, inactivePD, inactivePD, inactivePD, inactivePD, inactivePD,
   inactivePD⟩

/-- The spec produced for a blank pattern (`empty = true`). -/
def emptyTS : TimeShift :=
  ⟨true, inactivePD, inactivePD, inactivePD, inactivePD, inactivePD, inactivePD, inactivePD,
   inactivePD⟩

/-! ### Pattern scanner (model of `checkRE` / `splitRE`)

One clause of the regex is `(?:\s*)([YMDWwhms])([\^\$]?)([+-]?)(\d+)(?:\s*)`;
the check regex anchors one or more clauses over the whole string.  The
character classes after each optional group are disjoint from the group, so
the regex is equivalent to the greedy deterministic scanner below. -/

/-- Go regexp `\s` = `[\t\n\f\r ]`. -/
def isSpace (c : Char) : Bool :=
  c = ' ' || c = '\t' || c = '\n' || c = '\x0c' || c = '\r'

def isUnitLetter (c : Char) : Bool :=
  c = 'Y' || c = 'M' || c = 'D' || c = 'W' || c = 'w' || c = 'h' || c = 'm' || c = 's'

def isDigitCh (c : Char) : Bool := '0' ≤ c && c ≤ '9'

def isAnchorCh (c : Char) : Bool := c = '^' || c = '$'

def isSignCh (c : Char) : Bool := c = '+' || c = '-'

/-- One token of `splitRE.FindAllStringSubmatch`: submatches 1-4
(name, option, sign, digits). -/
structure Tok where
  name : Char
  anchor : Option Char
  sign : Option Char
  digits : List Char
deriving DecidableEq, Repr

/-- Consume one optional character matching `p` (regex `X?`). -/
def takeOpt (p : Char → Bool) (cs : List Char) : Option Char × List Char :=
  match cs with
  | [] => (none, [])
  | c :: r => if p c then (some c, r) else (none, c :: r)

/-- Match one clause after the leading whitespace has been dropped:
unit letter, optional anchor, optional sign, one-or-more digits, and the
trailing whitespace (consumed greedily into the clause). -/
def scanTail : List Char → Option (Tok × List Char)
  | [] => none
  | c :: rest =>
    if isUnitLetter c then
      if ((takeOpt isSignCh (takeOpt isAnchorCh rest).2).2.takeWhile isDigitCh).isEmpty then
        none
      else
        some (⟨c, (takeOpt isAnchorCh rest).1, (takeOpt isSignCh (takeOpt isAnchorCh rest).2).1,
                (takeOpt isSignCh (takeOpt isAnchorCh rest).2).2.takeWhile isDigitCh⟩,
              ((takeOpt isSignCh (takeOpt isAnchorCh rest).2).2.dropWhile isDigitCh).dropWhile
                isSpace)
    else none

/-- Match one clause at the head of the input; returns the token and the
rest of the input. -/
def scanClause (cs : List Char) : Option (Tok × List Char) := scanTail (cs.dropWhile isSpace)

/-- Repeat `scanClause` until the input is exhausted; any leftover that is
not a clause fails the whole match (the regex is anchored with `^...$`). -/
def tokenizeAux : Nat → List Char → Option (List Tok)
  | 0, _ => none
  | fuel + 1, cs =>
    if cs.isEmpty then some []
    else
      match scanClause cs with
      | none => none
      | some (t, rest) => (tokenizeAux fuel rest).map (t :: ·)

def patTokens (s : String) : Option (List Tok) := tokenizeAux (s.data.length + 1) s.data

/-! ### `New` (the parser / spec builder) -/

/-- The distinct `fmt.Errorf` messages `New` can produce, one constructor
per format string; `illegalPattern` is the generic syntax error and carries
the raw pattern it reports. -/
inductive NewErr where
  | illegalPattern (pattern : String)
  | wrongSequence
  | illegalOption
  | anchorWithRelative
  | bothAnchors
  | illegalMonth
  | illegalDay
  | illegalRelativeWeek
  | illegalAbsoluteWeek
  | illegalWeekday
deriving DecidableEq, Repr

/-- `partNames = []byte("YMDWwhms!")`. -/
def partNames : List Char := ['Y', 'M', 'D', 'W', 'w', 'h', 'm', 's', '!']

/-- The sequence/uniqueness cursor: scan `partNames` from `idx` for the
letter; found at absolute position `p` means the new cursor is `p + 1`,
exhaustion is the sequence error. -/
def seqAdvance (idx : Nat) (c : Char) : Option Nat :=
  match (partNames.drop idx).findIdx? (fun x => x = c) with
  | some j => some (idx + j + 1)
  | none => none

def digitsToNat (ds : List Char) : Nat :=
  ds.foldl (fun n c => 10 * n + (c.toNat - 48)) 0

/-- `strconv.ParseInt(digits, 10, 32)` with the range error discarded:
over-range magnitudes come back clamped to `1<<31 - 1`. -/
def parseIntClamp (ds : List Char) : Int :=
  Int.ofNat (min (digitsToNat ds) 2147483647)

/-- The value/sign part of the token's `partDef` (absolute unless signed;
`-` negates the magnitude). -/
def signApply (tok : Tok) : partDef :=
  match tok.sign with
  | some '+' => ⟨true, parseIntClamp tok.digits, false, false, false⟩
  | some '-' => ⟨true, -parseIntClamp tok.digits, false, false, false⟩
  | _ => ⟨true, parseIntClamp tok.digits, true, false, false⟩

/-- The option-character loop: `^` is legal only on `W`, `$` only on `D`
and `W`; anything else is the illegal-option error. -/
def anchorCheck (tok : Tok) (p1 : partDef) : Except NewErr partDef :=
  match tok.anchor with
  | some '^' =>
    if tok.name = 'W' then .ok { p1 with fromBegin := true }
    else .error .illegalOption
  | some '$' =>
    if tok.name = 'D' || tok.name = 'W' then .ok { p1 with fromEnd := true }
    else .error .illegalOption
  | _ => .ok p1

/-- Build the `partDef` of one token: value and sign, then the option
character with its applicability rules, then the anchor/relative and
double-anchor checks, in the order of the source. -/
def mkPartDef (tok : Tok) : Except NewErr partDef :=
  match anchorCheck tok (signApply tok) with
  | .error e => .error e
  | .ok p2 =>
    if (p2.fromBegin || p2.fromEnd) && !p2.absolute then .error .anchorWithRelative
    else if p2.fromBegin && p2.fromEnd then .error .bothAnchors
    else .ok p2

/-- Store one `partDef` into its unit's slot, enforcing the per-unit value
rules of the source's final `switch`. -/
def applyPart (name : Char) (p : partDef) (ts : TimeShift) : Except NewErr TimeShift :=
  if name = 'Y' then .ok { ts with year := p }
  else if name = 'M' then
    if p.absolute ∧ p.val = 0 then .error .illegalMonth else .ok { ts with month := p }
  else if name = 'D' then
    if p.active ∧ p.absolute ∧ p.val = 0 then .error .illegalDay else .ok { ts with day := p }
  else if name = 'W' then
    if p.active ∧ (p.fromBegin ∨ p.fromEnd) ∧ p.val = 0 then .error .illegalRelativeWeek
    else if p.active ∧ ¬(p.fromBegin ∨ p.fromEnd) ∧ p.absolute ∧ p.val = 0 then
      .error .illegalAbsoluteWeek
    else .ok { ts with week := p }
  else if name = 'w' then
    if p.val < 0 ∨ p.val > 6 then .error .illegalWeekday else .ok { ts with weekday := p }
  else if name = 'h' then .ok { ts with hour := p }
  else if name = 'm' then .ok { ts with minute := p }
  else if name = 's' then .ok { ts with second := p }
  else .ok ts

/-- The token loop of `New`: sequence check, then `partDef` construction,
then the per-unit store, aborting at the first error. -/
def buildLoop : List Tok → Nat → TimeShift → Except NewErr TimeShift
  | [], _, ts => .ok ts
  | tok :: rest, idx, ts =>
    match seqAdvance idx tok.name with
    | none => .error .wrongSequence
    | some idx' =>
      match mkPartDef tok with
      | .error e => .error e
      | .ok p =>
        match applyPart tok.name p ts with
        | .error e => .error e
        | .ok ts' => buildLoop rest idx' ts'

/-- The parsing logic of `New` (everything after the cache lookup): the
empty-pattern case, the whole-string regex check, and the token loop. -/
def build (pattern : String) : Except NewErr TimeShift :=
  if pattern = "" then .ok emptyTS
  else
    match patTokens pattern with
    | none => .error (.illegalPattern pattern)
    | some toks => buildLoop toks 0 zeroTS

def lookupCache (cache : List (String × TimeShift)) (p : String) : Option TimeShift :=
  (cache.find? (fun e => e.1 = p)).map (fun e => e.2)

/-- `New(pattern, cached)` with the process-global cache made an explicit
argument and result: consult the cache on `cached`, otherwise parse; a
successful parse is stored iff `cached`, a failed parse stores nothing. -/
def New (pattern : String) (cached : Bool) (cache : List (String × TimeShift)) :
    Except NewErr TimeShift × List (String × TimeShift) :=
  match (if cached then lookupCache cache pattern else none) with
  | some ts => (.ok ts, cache)
  | none =>
    match build pattern with
    | .error e => (.error e, cache)
    | .ok ts => (.ok ts, if cached then (pattern, ts) :: cache else cache)

/-! ### `Exec` (the evaluator) -/

/-- The per-field closure `proc` of `Exec`. -/
def procPart (df : partDef) (v : Int) : Int :=
  if !df.active then v
  else if df.fromEnd then v
  else if df.absolute then df.val
  else v + df.val

/-- Phase 1: field substitution and normalizing reconstruction
(`time.Date(year, month, day, hour, minute, second, 0, t.Location())`). -/
def candidate (ts : TimeShift) (t : GoTime) : GoTime :=
  Date (procPart ts.year (yearOf t)) (procPart ts.month (monthOf t)) (procPart ts.day (dayOf t))
    (procPart ts.hour (hourOf t)) (procPart ts.minute (minuteOf t)) (procPart ts.second (secondOf t))
    t.off

/-- Phase 2: the day-from-end adjustment
(`result.AddDate(0, 1, -day-ts.day.val+1)`, where `day` is the local
variable left by `proc`). -/
def phase2 (ts : TimeShift) (t : GoTime) : GoTime :=
  if ts.day.fromEnd then
    AddDate (candidate ts t) 0 1 (-(procPart ts.day (dayOf t)) - ts.day.val + 1)
  else candidate ts t

/-- The evaluator: identity for an empty spec, otherwise phases 1-2 and
then the week/weekday logic of the source. -/
def Exec (ts : TimeShift) (t : GoTime) : GoTime :=
  if ts.empty then t
  else
    let result := phase2 ts t
    if ts.week.active then
      let wd := if ts.weekday.active then ts.weekday.val else Weekday result
      if ts.week.fromBegin then
        let r1 := AddDate result 0 0 (-(Day result) + 1)
        let s0 := wd - Weekday r1
        let s1 := if s0 < 0 then s0 + 7 else s0
        AddDate r1 0 0 (s1 + (ts.week.val - 1) * 7)
      else if ts.week.fromEnd then
        let r1 := AddDate result 0 1 (-(Day result))
        let s0 := wd - Weekday r1
        let s1 := if s0 > 0 then s0 - 7 else s0
        AddDate r1 0 0 (s1 - (ts.week.val - 1) * 7)
      else if ts.week.absolute then
        let r1 := AddDate result 0 0 (-(YearDay result) + 1)
        let s0 := wd - Weekday r1
        let s1 := if s0 < 0 then s0 + 7 else s0
        AddDate r1 0 0 (s1 + (ts.week.val - 1) * 7)
      else
        let r1 := AddDate result 0 0 (ts.week.val * 7)
        if ts.weekday.active then AddDate r1 0 0 (ts.weekday.val - Weekday r1) else r1
    else if ts.weekday.active then
      AddDate result 0 0 (ts.weekday.val - Weekday result)
    else result

instance : DecidableEq (Except NewErr TimeShift) := fun a b =>
  match a, b with
  | .ok x, .ok y => decidable_of_iff (x = y) (by simp)
  | .error x, .error y => decidable_of_iff (x = y) (by simp)
  | .ok _, .error _ => isFalse (by simp)
  | .error _, .ok _ => isFalse (by simp)

/-- Whether a parse result is a success. -/
def isOkB (r : Except NewErr TimeShift) : Bool :=
  match r with
  | .ok _ => true
  | .error _ => false

/-! ### Derived facts about the evaluator's building blocks -/

/-- The first day of `t`'s month, keeping the clock — the "month start"
the specification's phase-3 `^` case speaks about. -/
def monthStart (t : GoTime) : GoTime :=
  Date (yearOf t) (monthOf t) 1 (hourOf t) (minuteOf t) (secondOf t) t.off

/-- The reference weekday `wd` of the week phase: the weekday `partDef`'s
value if that unit is active, else the candidate's current weekday. -/
def wdRef (ts : TimeShift) (r : GoTime) : Int :=
  if ts.weekday.active then ts.weekday.val else Weekday r

theorem AddDate_monthStart (t : GoTime) :
    AddDate t 0 0 (-(Day t) + 1) = monthStart t := by
  unfold AddDate monthStart Day
  rw [add_zero, add_zero, show dayOf t + (-(dayOf t) + 1) = 1 by ring]

/-- `AddDate(0, 1, k)` factors as `AddDate(0, 1, 0)` followed by a plain
`k`-day shift. -/
theorem AddDate_month_days (t : GoTime) (k : Int) :
    AddDate t 0 1 k = AddDate (AddDate t 0 1 0) 0 0 k := by
  rw [AddDate_days]
  unfold AddDate
  rw [Date_day_shift, add_zero (dayOf t)]
  rfl

/-! ### The clause grammar, stated from the specification's words

The spec describes a pattern as one or more unit occurrences
`<optional whitespace> <unitLetter> <anchor?> <sign?> <digits> <optional whitespace>`
covering the entire string with nothing else permitted.  `IsClause` is one
such occurrence; `Clauses` is a back-to-back sequence of them. -/

def IsClause (cl : List Char) : Prop :=
  ∃ w1 l a sg ds w2,
    cl = w1 ++ l :: (a ++ sg ++ ds ++ w2) ∧
    (∀ c ∈ w1, isSpace c = true) ∧
    isUnitLetter l = true ∧
    (a = [] ∨ a = ['^'] ∨ a = ['$']) ∧
    (sg = [] ∨ sg = ['+'] ∨ sg = ['-']) ∧
    ds ≠ [] ∧ (∀ c ∈ ds, isDigitCh c = true) ∧
    (∀ c ∈ w2, isSpace c = true)

inductive Clauses : List Char → Prop where
  | nil : Clauses []
  | cons {cl rest : List Char} : IsClause cl → Clauses rest → Clauses (cl ++ rest)

/-- The spec's syntactic validity: a non-empty pattern entirely composed
of unit clauses. -/
def GrammarOK (p : String) : Prop := p.data ≠ [] ∧ Clauses p.data

/-! #### Character-class facts -/

theorem unitLetter_cases {c : Char} (h : isUnitLetter c = true) :
    c = 'Y' ∨ c = 'M' ∨ c = 'D' ∨ c = 'W' ∨ c = 'w' ∨ c = 'h' ∨ c = 'm' ∨ c = 's' := by
  simp only [isUnitLetter, Bool.or_eq_true, decide_eq_true_eq] at h
  tauto

theorem space_cases {c : Char} (h : isSpace c = true) :
    c = ' ' ∨ c = '\t' ∨ c = '\n' ∨ c = '\x0c' ∨ c = '\r' := by
  simp only [isSpace, Bool.or_eq_true, decide_eq_true_eq] at h
  tauto

theorem anchor_cases {c : Char} (h : isAnchorCh c = true) : c = '^' ∨ c = '$' := by
  simp only [isAnchorCh, Bool.or_eq_true, decide_eq_true_eq] at h
  tauto

theorem unitLetter_not_space {c : Char} (h : isUnitLetter c = true) : isSpace c = false := by
  rcases unitLetter_cases h with rfl | rfl | rfl | rfl | rfl | rfl | rfl | rfl <;> decide

theorem unitLetter_not_digit {c : Char} (h : isUnitLetter c = true) : isDigitCh c = false := by
  rcases unitLetter_cases h with rfl | rfl | rfl | rfl | rfl | rfl | rfl | rfl <;> decide

theorem space_not_digit {c : Char} (h : isSpace c = true) : isDigitCh c = false := by
  rcases space_cases h with rfl | rfl | rfl | rfl | rfl <;> decide

theorem digit_not_anchor {c : Char} (h : isDigitCh c = true) : isAnchorCh c = false := by
  cases ha : isAnchorCh c
  · rfl
  · rcases anchor_cases ha with rfl | rfl <;> exact absurd h (by decide)

theorem digit_not_sign {c : Char} (h : isDigitCh c = true) : isSignCh c = false := by
  cases hs : isSignCh c
  · rfl
  · have : c = '+' ∨ c = '-' := by
      simp only [isSignCh, Bool.or_eq_true, decide_eq_true_eq] at hs
      tauto
    rcases this with rfl | rfl <;> exact absurd h (by decide)

/-! #### takeWhile / dropWhile facts -/

theorem dropWhile_append_all {p : Char → Bool} {w : List Char} (h : ∀ c ∈ w, p c = true)
    (xs : List Char) : (w ++ xs).dropWhile p = xs.dropWhile p := by
  induction w with
  | nil => rfl
  | cons a w ih =>
    have ha : p a = true := h a (List.mem_cons_self a w)
    simp only [List.cons_append, List.dropWhile_cons, ha, if_true]
    exact ih (fun c hc => h c (List.mem_cons_of_mem a hc))

theorem dropWhile_cons_neg {p : Char → Bool} {c : Char} (h : p c = false) (xs : List Char) :
    (c :: xs).dropWhile p = c :: xs := by
  simp [List.dropWhile_cons, h]

theorem takeWhile_append_all {p : Char → Bool} {ds : List Char} (h : ∀ c ∈ ds, p c = true)
    (xs : List Char) : (ds ++ xs).takeWhile p = ds ++ xs.takeWhile p := by
  induction ds with
  | nil => rfl
  | cons a ds ih =>
    have ha : p a = true := h a (List.mem_cons_self a ds)
    simp only [List.cons_append, List.takeWhile_cons, ha, if_true, List.cons.injEq, true_and]
    exact ih (fun c hc => h c (List.mem_cons_of_mem a hc))

theorem takeWhile_cons_neg {p : Char → Bool} {c : Char} (h : p c = false) (xs : List Char) :
    (c :: xs).takeWhile p = [] := by
  simp [List.takeWhile_cons, h]

theorem length_dropWhile_le' (p : Char → Bool) (l : List Char) :
    (l.dropWhile p).length ≤ l.length := by
  induction l with
  | nil => simp
  | cons a l ih =>
    rw [List.dropWhile_cons]
    split
    · exact le_trans ih (by simp)
    · simp

/-! #### Soundness: a successful scan decomposes the input into clauses -/

theorem takeOpt_cases (p : Char → Bool) (cs : List Char) :
    takeOpt p cs = (none, cs) ∨
    (∃ c r, cs = c :: r ∧ p c = true ∧ takeOpt p cs = (some c, r)) := by
  cases cs with
  | nil => exact Or.inl rfl
  | cons c r =>
    by_cases h : p c = true
    · exact Or.inr ⟨c, r, rfl, h, by simp [takeOpt, h]⟩
    · left
      simp only [takeOpt]
      rw [if_neg (by simp [h])]

theorem takeOpt_decomp (p : Char → Bool) (cs : List Char) :
    ∃ pre, cs = pre ++ (takeOpt p cs).2 ∧
      (pre = [] ∨ ∃ c, pre = [c] ∧ p c = true) := by
  rcases takeOpt_cases p cs with h | ⟨c, r, rfl, hp, h⟩
  · exact ⟨[], by rw [h]; rfl, Or.inl rfl⟩
  · exact ⟨[c], by rw [h]; rfl, Or.inr ⟨c, rfl, hp⟩⟩

theorem takeOpt_yes {p : Char → Bool} {c : Char} (h : p c = true) (t : List Char) :
    takeOpt p (c :: t) = (some c, t) := by
  simp [takeOpt, h]

theorem sign_cases {c : Char} (h : isSignCh c = true) : c = '+' ∨ c = '-' := by
  simp only [isSignCh, Bool.or_eq_true, decide_eq_true_eq] at h
  tauto

theorem ne_nil_of_isEmpty_false {l : List Char} (h : l.isEmpty = false) : l ≠ [] := by
  cases l with
  | nil => simp at h
  | cons a l => simp

theorem scanClause_sound {cs : List Char} {tok : Tok} {rest : List Char}
    (h : scanClause cs = some (tok, rest)) :
    ∃ cl, IsClause cl ∧ cl ≠ [] ∧ cs = cl ++ rest := by
  have hsplit := (List.takeWhile_append_dropWhile isSpace cs).symm
  unfold scanClause at h
  rcases hdw : cs.dropWhile isSpace with _ | ⟨c, tail⟩ <;> rw [hdw] at h
  · exact absurd h (by simp [scanTail])
  rw [hdw] at hsplit
  simp only [scanTail] at h
  by_cases hu : isUnitLetter c = true
  case neg => rw [if_neg hu] at h; exact absurd h (by simp)
  rw [if_pos hu] at h
  by_cases hds :
      ((takeOpt isSignCh (takeOpt isAnchorCh tail).2).2.takeWhile isDigitCh).isEmpty = true
  · rw [if_pos hds] at h; exact absurd h (by simp)
  rw [if_neg hds] at h
  simp only [Option.some.injEq, Prod.mk.injEq] at h
  obtain ⟨htok, hrest⟩ := h
  obtain ⟨aPre, haeq, haopt⟩ := takeOpt_decomp isAnchorCh tail
  obtain ⟨sPre, hseq, hsopt⟩ := takeOpt_decomp isSignCh (takeOpt isAnchorCh tail).2
  refine ⟨cs.takeWhile isSpace ++ c ::
      (aPre ++ sPre ++ (takeOpt isSignCh (takeOpt isAnchorCh tail).2).2.takeWhile isDigitCh ++
        ((takeOpt isSignCh (takeOpt isAnchorCh tail).2).2.dropWhile isDigitCh).takeWhile isSpace),
    ⟨cs.takeWhile isSpace, c, aPre, sPre,
      (takeOpt isSignCh (takeOpt isAnchorCh tail).2).2.takeWhile isDigitCh,
      ((takeOpt isSignCh (takeOpt isAnchorCh tail).2).2.dropWhile isDigitCh).takeWhile isSpace,
      rfl,
      fun x hx => List.mem_takeWhile_imp hx, hu, ?_, ?_, ne_nil_of_isEmpty_false (by
        cases hval : ((takeOpt isSignCh (takeOpt isAnchorCh tail).2).2.takeWhile
            isDigitCh).isEmpty
        · rfl
        · exact absurd hval hds),
      fun x hx => List.mem_takeWhile_imp hx, fun x hx => List.mem_takeWhile_imp hx⟩,
    by simp, ?_⟩
  · rcases haopt with rfl | ⟨c1, rfl, hp1⟩
    · exact Or.inl rfl
    · rcases anchor_cases hp1 with rfl | rfl
      · exact Or.inr (Or.inl rfl)
      · exact Or.inr (Or.inr rfl)
  · rcases hsopt with rfl | ⟨c1, rfl, hp1⟩
    · exact Or.inl rfl
    · rcases sign_cases hp1 with rfl | rfl
      · exact Or.inr (Or.inl rfl)
      · exact Or.inr (Or.inr rfl)
  · -- cs = cl ++ rest, by successively folding the decompositions back up
    have hXeq : (takeOpt isSignCh (takeOpt isAnchorCh tail).2).2
        = (takeOpt isSignCh (takeOpt isAnchorCh tail).2).2.takeWhile isDigitCh ++
          (takeOpt isSignCh (takeOpt isAnchorCh tail).2).2.dropWhile isDigitCh :=
      (List.takeWhile_append_dropWhile isDigitCh _).symm
    have hT' : (takeOpt isSignCh (takeOpt isAnchorCh tail).2).2.dropWhile isDigitCh
        = ((takeOpt isSignCh (takeOpt isAnchorCh tail).2).2.dropWhile isDigitCh).takeWhile
            isSpace ++ rest := by
      rw [← hrest]
      exact (List.takeWhile_append_dropWhile isSpace _).symm
    simp only [List.append_assoc, List.cons_append]
    rw [← hT', ← hXeq, ← hseq, ← haeq, ← hsplit]

/-! #### Completeness: a clause sequence is accepted by the scanner -/

theorem takeOpt_not (p : Char → Bool) {cs : List Char}
    (h : cs = [] ∨ ∃ c t, cs = c :: t ∧ p c = false) : takeOpt p cs = (none, cs) := by
  rcases h with rfl | ⟨c, t, rfl, hc⟩
  · rfl
  · simp only [takeOpt]
    rw [if_neg (by simp [hc])]

theorem takeWhile_not (p : Char → Bool) {cs : List Char}
    (h : cs = [] ∨ ∃ c t, cs = c :: t ∧ p c = false) :
    cs.takeWhile p = [] ∧ cs.dropWhile p = cs := by
  rcases h with rfl | ⟨c, t, rfl, hc⟩
  · exact ⟨rfl, rfl⟩
  · exact ⟨takeWhile_cons_neg hc t, dropWhile_cons_neg hc t⟩

/-- A good continuation: empty, or starting with a space or unit letter
(which is how any clause sequence starts). -/
def GoodStart (cs : List Char) : Prop :=
  cs = [] ∨ ∃ c t, cs = c :: t ∧ (isSpace c = true ∨ isUnitLetter c = true)

theorem goodStart_not_digit {cs : List Char} (h : GoodStart cs) :
    cs = [] ∨ ∃ c t, cs = c :: t ∧ isDigitCh c = false := by
  rcases h with rfl | ⟨c, t, rfl, hc | hc⟩
  · exact Or.inl rfl
  · exact Or.inr ⟨c, t, rfl, space_not_digit hc⟩
  · exact Or.inr ⟨c, t, rfl, unitLetter_not_digit hc⟩

theorem scanClause_complete {cl rest : List Char} (hcl : IsClause cl) (hr : GoodStart rest) :
    ∃ tok, scanClause (cl ++ rest) = some (tok, rest.dropWhile isSpace) := by
  obtain ⟨w1, l, a, sg, ds, w2, rfl, hw1, hl, ha, hsg, hne, hds, hw2⟩ := hcl
  obtain ⟨d0, dtail, rfl⟩ : ∃ d0 dtail, ds = d0 :: dtail := by
    cases ds with
    | nil => exact absurd rfl hne
    | cons d0 dtail => exact ⟨d0, dtail, rfl⟩
  have hw2rest : (w2 ++ rest) = [] ∨ ∃ c t, (w2 ++ rest) = c :: t ∧ isDigitCh c = false := by
    cases w2 with
    | nil =>
      simp only [List.nil_append]
      exact goodStart_not_digit hr
    | cons cw tw =>
      exact Or.inr ⟨cw, tw ++ rest, by simp, space_not_digit (hw2 cw (by simp))⟩
  -- drop the leading whitespace of the clause
  have hI : ((w1 ++ l :: (a ++ sg ++ (d0 :: dtail) ++ w2)) ++ rest).dropWhile isSpace
      = l :: (a ++ (sg ++ ((d0 :: dtail) ++ (w2 ++ rest)))) := by
    rw [List.append_assoc, dropWhile_append_all hw1, List.cons_append,
      dropWhile_cons_neg (unitLetter_not_space hl)]
    simp [List.append_assoc]
  unfold scanClause
  rw [hI]
  simp only [scanTail]
  rw [if_pos hl]
  -- the anchor step
  have hA : ∃ o, takeOpt isAnchorCh (a ++ (sg ++ ((d0 :: dtail) ++ (w2 ++ rest))))
      = (o, sg ++ ((d0 :: dtail) ++ (w2 ++ rest))) := by
    rcases ha with rfl | rfl | rfl
    · rcases hsg with rfl | rfl | rfl
      · exact ⟨none, takeOpt_not isAnchorCh
          (Or.inr ⟨d0, _, rfl, digit_not_anchor (hds d0 (by simp))⟩)⟩
      · exact ⟨none, takeOpt_not isAnchorCh (Or.inr ⟨'+', _, rfl, by decide⟩)⟩
      · exact ⟨none, takeOpt_not isAnchorCh (Or.inr ⟨'-', _, rfl, by decide⟩)⟩
    · exact ⟨some '^', takeOpt_yes (by decide) _⟩
    · exact ⟨some '$', takeOpt_yes (by decide) _⟩
  obtain ⟨aO, hA⟩ := hA
  rw [hA]
  -- the sign step
  have hS : ∃ o, takeOpt isSignCh (sg ++ ((d0 :: dtail) ++ (w2 ++ rest)))
      = (o, (d0 :: dtail) ++ (w2 ++ rest)) := by
    rcases hsg with rfl | rfl | rfl
    · exact ⟨none, takeOpt_not isSignCh
        (Or.inr ⟨d0, _, rfl, digit_not_sign (hds d0 (by simp))⟩)⟩
    · exact ⟨some '+', takeOpt_yes (by decide) _⟩
    · exact ⟨some '-', takeOpt_yes (by decide) _⟩
  obtain ⟨sO, hS⟩ := hS
  rw [hS]
  -- the digit step
  have hTake : ((d0 :: dtail) ++ (w2 ++ rest)).takeWhile isDigitCh = d0 :: dtail := by
    rw [takeWhile_append_all hds, (takeWhile_not isDigitCh hw2rest).1, List.append_nil]
  have hDrop : ((d0 :: dtail) ++ (w2 ++ rest)).dropWhile isDigitCh = w2 ++ rest := by
    rw [dropWhile_append_all hds, (takeWhile_not isDigitCh hw2rest).2]
  rw [hTake, hDrop]
  rw [if_neg (by simp)]
  rw [dropWhile_append_all hw2]
  exact ⟨_, rfl⟩

/-! #### The tokenizer accepts exactly the clause sequences -/

theorem tokenizeAux_sound :
    ∀ (fuel : Nat) (cs : List Char) (toks : List Tok),
      tokenizeAux fuel cs = some toks → Clauses cs := by
  intro fuel
  induction fuel with
  | zero => intro cs toks h; exact absurd h (by simp [tokenizeAux])
  | succ fuel ih =>
    intro cs toks h
    unfold tokenizeAux at h
    by_cases he : cs.isEmpty = true
    · have : cs = [] := by
        cases cs with
        | nil => rfl
        | cons a l => simp at he
      subst this
      exact Clauses.nil
    · rw [if_neg he] at h
      rcases hsc : scanClause cs with _ | ⟨t, rest⟩ <;> rw [hsc] at h <;> dsimp only at h
      · exact absurd h (by simp)
      · rcases htk : tokenizeAux fuel rest with _ | toks' <;> rw [htk] at h
        · exact absurd h (by simp)
        · obtain ⟨cl, hcl, _, rfl⟩ := scanClause_sound hsc
          exact Clauses.cons hcl (ih rest toks' htk)

theorem isClause_ne_nil {cl : List Char} (h : IsClause cl) : cl ≠ [] := by
  obtain ⟨w1, l, a, sg, ds, w2, rfl, _⟩ := h
  simp

theorem clauses_start {cs : List Char} (h : Clauses cs) : GoodStart cs := by
  cases h with
  | @cons cl rest hcl hrest =>
    obtain ⟨w1, l, a, sg, ds, w2, rfl, hw1, hl, _⟩ := hcl
    cases w1 with
    | nil =>
      exact Or.inr ⟨l, (a ++ sg ++ ds ++ w2) ++ rest, by simp, Or.inr hl⟩
    | cons c w1' =>
      exact Or.inr ⟨c, (w1' ++ l :: (a ++ sg ++ ds ++ w2)) ++ rest, by simp,
        Or.inl (hw1 c (by simp))⟩
  | nil => exact Or.inl rfl

theorem clauses_dropWhile {cs : List Char} (h : Clauses cs) : Clauses (cs.dropWhile isSpace) := by
  cases h with
  | nil => exact Clauses.nil
  | @cons cl rest hcl hrest =>
    obtain ⟨w1, l, a, sg, ds, w2, rfl, hw1, hl, ha, hsg, hne, hds, hw2⟩ := hcl
    have heq : ((w1 ++ l :: (a ++ sg ++ ds ++ w2)) ++ rest).dropWhile isSpace
        = l :: ((a ++ sg ++ ds ++ w2) ++ rest) := by
      rw [List.append_assoc, dropWhile_append_all hw1, List.cons_append,
        dropWhile_cons_neg (unitLetter_not_space hl)]
    rw [heq]
    have hcl' : IsClause (l :: (a ++ sg ++ ds ++ w2)) :=
      ⟨[], l, a, sg, ds, w2, rfl, by simp, hl, ha, hsg, hne, hds, hw2⟩
    exact Clauses.cons hcl' hrest

theorem tokenizeAux_complete :
    ∀ (n : Nat) (cs : List Char), cs.length ≤ n → Clauses cs →
      ∀ fuel, cs.length < fuel → tokenizeAux fuel cs ≠ none := by
  intro n
  induction n with
  | zero =>
    intro cs hlen hcl fuel hfuel
    have hnil : cs = [] := by
      cases cs with
      | nil => rfl
      | cons a l => simp at hlen
    subst hnil
    cases fuel with
    | zero => omega
    | succ f => simp [tokenizeAux]
  | succ n ih =>
    intro cs hlen hcl fuel hfuel
    cases hcl with
    | nil =>
      cases fuel with
      | zero => omega
      | succ f => simp [tokenizeAux]
    | cons hclause hrest =>
      rename_i cl rest
      cases fuel with
      | zero => omega
      | succ f =>
        have hclne := isClause_ne_nil hclause
        have hlcl : 1 ≤ cl.length := by
          cases cl with
          | nil => exact absurd rfl hclne
          | cons a l => simp
        unfold tokenizeAux
        rw [if_neg (by
          cases hcs : cl ++ rest with
          | nil => exact absurd (List.append_eq_nil.mp hcs).1 hclne
          | cons a l => simp)]
        obtain ⟨tok, hsc⟩ := scanClause_complete hclause (clauses_start hrest)
        rw [hsc]
        dsimp only
        have hlen2 : (rest.dropWhile isSpace).length ≤ n := by
          have h1 := length_dropWhile_le' isSpace rest
          have h2 : cl.length + rest.length ≤ n + 1 := by
            simpa [List.length_append] using hlen
          omega
        have hfuel2 : (rest.dropWhile isSpace).length < f := by
          have h1 := length_dropWhile_le' isSpace rest
          have h2 : cl.length + rest.length < f + 1 := by
            simpa [List.length_append] using hfuel
          omega
        intro hcontra
        rcases htk : tokenizeAux f (rest.dropWhile isSpace) with _ | toks'
        · exact ih (rest.dropWhile isSpace) hlen2 (clauses_dropWhile hrest) f hfuel2 htk
        · rw [htk] at hcontra
          exact absurd hcontra (by simp)

/-! #### The non-syntax errors of the builder -/

theorem anchorCheck_not_illegalPattern (tok : Tok) (p1 : partDef) (q : String) :
    anchorCheck tok p1 ≠ .error (.illegalPattern q) := by
  unfold anchorCheck
  split
  · split_ifs <;> simp
  · split_ifs <;> simp
  · simp

theorem mkPartDef_not_illegalPattern (tok : Tok) (q : String) :
    mkPartDef tok ≠ .error (.illegalPattern q) := by
  intro hc
  unfold mkPartDef at hc
  rcases hac : anchorCheck tok (signApply tok) with e | p2 <;> rw [hac] at hc <;>
    dsimp only at hc
  · simp only [Except.error.injEq] at hc
    exact anchorCheck_not_illegalPattern tok (signApply tok) q (by rw [hac, hc])
  · split_ifs at hc <;> simp at hc

theorem applyPart_not_illegalPattern (name : Char) (p : partDef) (ts : TimeShift) (q : String) :
    applyPart name p ts ≠ .error (.illegalPattern q) := by
  unfold applyPart
  split_ifs <;> simp

theorem buildLoop_not_illegalPattern :
    ∀ (toks : List Tok) (idx : Nat) (ts : TimeShift) (q : String),
      buildLoop toks idx ts ≠ .error (.illegalPattern q) := by
  intro toks
  induction toks with
  | nil => intro idx ts q; simp [buildLoop]
  | cons tok rest ih =>
    intro idx ts q hc
    unfold buildLoop at hc
    rcases h1 : seqAdvance idx tok.name with _ | idx' <;> rw [h1] at hc <;> dsimp only at hc
    · simp at hc
    · rcases h2 : mkPartDef tok with e | p <;> rw [h2] at hc <;> dsimp only at hc
      · simp only [Except.error.injEq] at hc
        exact mkPartDef_not_illegalPattern tok q (by rw [h2, hc])
      · rcases h3 : applyPart tok.name p ts with e | ts' <;> rw [h3] at hc <;> dsimp only at hc
        · simp only [Except.error.injEq] at hc
          exact applyPart_not_illegalPattern tok.name p ts q (by rw [h3, hc])
        · exact ih idx' ts' q hc

/-! ### Concrete specs used to instantiate the general theorems -/

/-- The spec parsed from "w3". -/
def tsW3 : TimeShift := { zeroTS with weekday := ⟨true, 3, true, false, false⟩ }

/-- The spec parsed from "D$1". -/
def tsD1 : TimeShift := { zeroTS with day := ⟨true, 1, true, false, true⟩ }

/-- The spec parsed from "W^1 w0". -/
def tsW1w0 : TimeShift :=
  { zeroTS with week := ⟨true, 1, true, true, false⟩, weekday := ⟨true, 0, true, false, false⟩ }

/-! ### C1 -/

/-- C1: the identity law claims both the blank and the whitespace-only
pattern parse to the empty spec with `Exec` the identity.  The source
special-cases only the exactly-empty string: `New("")` indeed yields
`empty = true` and `Exec` returns its input unchanged (offset included),
but a whitespace-only pattern such as `"   "` falls through to the
whole-string regex, which requires at least one clause, so `New` fails
with the generic syntax error — contradicting the repository's own test
table, which expects a spaces-only pattern to parse successfully. -/
theorem blank_identity_whitespace_rejected :
    build "" = .ok emptyTS ∧ (∀ t : GoTime, Exec emptyTS t = t) ∧
    build "   " = .error (.illegalPattern "   ") :=
  ⟨by decide, fun _ => rfl, by decide⟩

/-! ### C2 -/

set_option maxRecDepth 40000 in
/-- C2: with the day unit anchored from the end, `"D$1"` applied to
2000-02-13T14:55:22Z gives 2000-02-29T14:55:22Z (leap year), and
`"Y+100 D$1"` applied to the same instant gives 2100-02-28T14:55:22Z
(2100 is not a leap year): day `$1` is the last day of the resulting
month across different month lengths. -/
theorem day_from_end_examples :
    (build "D$1").toOption.map (fun ts => Exec ts (utc 2000 2 13 14 55 22))
        = some (utc 2000 2 29 14 55 22) ∧
    (build "Y+100 D$1").toOption.map (fun ts => Exec ts (utc 2000 2 13 14 55 22))
        = some (utc 2100 2 28 14 55 22) := by decide

/-! ### C3 -/

/-- Modelled from the spec, phase 2, exactly as worded: "take the
candidate's month-start, advance one month, then step back
(originalDayOfMonth + value − 1) days", with `originalDayOfMonth` the day
captured during decomposition. -/
def phase2SpecWorded (ts : TimeShift) (t : GoTime) : GoTime :=
  AddDate (AddDate (monthStart (candidate ts t)) 0 1 0) 0 0 (-(dayOf t + ts.day.val - 1))

/-- The amended phase-2 algorithm: take the *candidate* (not its month
start), advance one month, then step back (originalDayOfMonth + value − 1)
days. -/
def phase2SpecAmended (ts : TimeShift) (t : GoTime) : GoTime :=
  AddDate (AddDate (candidate ts t) 0 1 0) 0 0 (-(dayOf t + ts.day.val - 1))

set_option maxRecDepth 40000 in
/-- C3 counterexample: for `"D$2"` on 2020-06-13T14:55:22Z the code's
phase 2 yields June 29 (the second-to-last day of June), while the spec's
worded algorithm (starting from the *month start* before adding a month)
yields June 17; the two differ, so phase 2 does not compute the claimed
algorithm. -/
theorem day_from_end_algorithm_cex :
    (build "D$2").toOption.map
        (fun ts => (phase2 ts (utc 2020 6 13 14 55 22), phase2SpecWorded ts (utc 2020 6 13 14 55 22)))
      = some (utc 2020 6 29 14 55 22, utc 2020 6 17 14 55 22) ∧
    (utc 2020 6 29 14 55 22 : GoTime) ≠ utc 2020 6 17 14 55 22 := by decide

/-- C3 amended: for every spec whose day unit is active and anchored
from-end and every timestamp, phase 2 equals: take the candidate, advance
one month, then step back (originalDayOfMonth + value − 1) days. -/
theorem day_from_end_algorithm_amended (ts : TimeShift) (t : GoTime)
    (ha : ts.day.active = true) (hf : ts.day.fromEnd = true) :
    phase2 ts t = phase2SpecAmended ts t := by
  have hproc : procPart ts.day (dayOf t) = dayOf t := by
    unfold procPart
    rw [ha, hf]
    simp
  unfold phase2 phase2SpecAmended
  rw [hf]
  simp only [if_true]
  rw [hproc, ← AddDate_month_days]
  congr 1
  ring

theorem day_from_end_algorithm_amended_witness :
    tsD1.day.active = true ∧ tsD1.day.fromEnd = true ∧
    phase2 tsD1 (utc 2000 2 13 14 55 22) = phase2SpecAmended tsD1 (utc 2000 2 13 14 55 22) :=
  ⟨rfl, rfl, day_from_end_algorithm_amended tsD1 (utc 2000 2 13 14 55 22) rfl rfl⟩

/-! ### C4 -/

set_option maxRecDepth 40000 in
/-- C4: with the week unit active and anchored `^`, `Exec` moves the
phase-2 candidate to the first day of its month and advances it by
`(wd − weekday(month_start)) mod 7 + 7·(value − 1)` days, returning that
directly (the weekday snap is folded in); and `"W^1 w0"` applied to
2021-01-20 yields 2021-01-03, the first Sunday of January 2021. -/
theorem week_from_begin_nth_weekday :
    (∀ (ts : TimeShift) (t : GoTime), ts.empty = false → ts.week.active = true →
        ts.week.fromBegin = true →
        (ts.weekday.active = true → 0 ≤ ts.weekday.val ∧ ts.weekday.val < 7) →
        Exec ts t
          = AddDate (monthStart (phase2 ts t)) 0 0
              ((wdRef ts (phase2 ts t) - Weekday (monthStart (phase2 ts t))) % 7
                + 7 * (ts.week.val - 1))) ∧
    (build "W^1 w0").toOption.map (fun ts => Exec ts (utc 2021 1 20 0 0 0))
        = some (utc 2021 1 3 0 0 0) := by
  refine ⟨fun ts t he hw hb hwd => ?_, by decide⟩
  have hms := AddDate_monthStart (phase2 ts t)
  have hwb := Weekday_bounds (monthStart (phase2 ts t))
  unfold Exec
  simp only [he, Bool.false_eq_true, if_false, hw, hb, if_true]
  rw [hms]
  unfold wdRef
  have harg :
      (if (if ts.weekday.active then ts.weekday.val else Weekday (phase2 ts t))
            - Weekday (monthStart (phase2 ts t)) < 0
        then (if ts.weekday.active then ts.weekday.val else Weekday (phase2 ts t))
            - Weekday (monthStart (phase2 ts t)) + 7
        else (if ts.weekday.active then ts.weekday.val else Weekday (phase2 ts t))
            - Weekday (monthStart (phase2 ts t)))
          + (ts.week.val - 1) * 7
        = ((if ts.weekday.active then ts.weekday.val else Weekday (phase2 ts t))
            - Weekday (monthStart (phase2 ts t))) % 7 + 7 * (ts.week.val - 1) := by
    by_cases h : ts.weekday.active = true
    · have hv := hwd h
      simp only [h, if_true]
      split <;> omega
    · have hv := Weekday_bounds (phase2 ts t)
      simp [h]
      split <;> omega
  rw [harg]

theorem week_from_begin_nth_weekday_witness :
    tsW1w0.empty = false ∧ tsW1w0.week.active = true ∧ tsW1w0.week.fromBegin = true ∧
    Exec tsW1w0 (utc 2021 1 20 0 0 0)
      = AddDate (monthStart (phase2 tsW1w0 (utc 2021 1 20 0 0 0))) 0 0
          ((wdRef tsW1w0 (phase2 tsW1w0 (utc 2021 1 20 0 0 0))
              - Weekday (monthStart (phase2 tsW1w0 (utc 2021 1 20 0 0 0)))) % 7
            + 7 * (tsW1w0.week.val - 1)) :=
  ⟨rfl, rfl, rfl,
    week_from_begin_nth_weekday.1 tsW1w0 (utc 2021 1 20 0 0 0) rfl rfl rfl
      (fun _ => by decide)⟩

/-! ### C5 -/

set_option maxRecDepth 40000 in
/-- C5: with the weekday unit active and the week unit inactive, `Exec`
snaps by the signed difference `value − weekday(candidate)` with no
modulo (so the move can be backward within the 7-day span and never wraps
to force a positive shift); `"w3"` on Monday 2021-02-22 (weekday 1) gives
2021-02-24, a forward shift of two days. -/
theorem weekday_snap_standalone :
    (∀ (ts : TimeShift) (t : GoTime), ts.empty = false → ts.week.active = false →
        ts.weekday.active = true →
        Exec ts t = AddDate (phase2 ts t) 0 0 (ts.weekday.val - Weekday (phase2 ts t))) ∧
    (build "w3").toOption.map (fun ts => Exec ts (utc 2021 2 22 14 55 22))
        = some (utc 2021 2 24 14 55 22) ∧
    Weekday (utc 2021 2 22 14 55 22) = 1 := by
  refine ⟨fun ts t he hw ha => ?_, by decide, by decide⟩
  unfold Exec
  simp only [he, hw, ha, Bool.false_eq_true, if_false, if_true]

theorem weekday_snap_standalone_witness :
    tsW3.empty = false ∧ tsW3.week.active = false ∧ tsW3.weekday.active = true ∧
    Exec tsW3 (utc 2021 2 22 14 55 22)
      = AddDate (phase2 tsW3 (utc 2021 2 22 14 55 22)) 0 0
          (tsW3.weekday.val - Weekday (phase2 tsW3 (utc 2021 2 22 14 55 22))) :=
  ⟨rfl, rfl, rfl, weekday_snap_standalone.1 tsW3 (utc 2021 2 22 14 55 22) rfl rfl rfl⟩

/-! ### C6 -/

set_option maxRecDepth 40000 in
/-- C6 counterexample: the claimed pattern (without a year clause) does
not produce the claimed 2023 result. -/
theorem round_overflow_cex :
    (build "M+22 D+33 h+66 m+200 s+300").toOption.map
        (fun ts => Exec ts (utc 2020 6 13 14 55 22))
      ≠ some (utc 2023 5 19 12 20 22) := by decide

set_option maxRecDepth 40000 in
/-- C6 amended: over-range relative values normalize by calendar carry:
`"M+22 D+33 h+66 m+200 s+300"` on 2020-06-13T14:55:22Z yields
2022-05-19T12:20:22Z; the spec's expected 2023-05-19T12:20:22Z is what
the pattern with the additional `Y+1` clause (as in the repository's
test) produces. -/
theorem round_overflow_amended :
    (build "M+22 D+33 h+66 m+200 s+300").toOption.map
        (fun ts => Exec ts (utc 2020 6 13 14 55 22))
      = some (utc 2022 5 19 12 20 22) ∧
    (build "Y+1 M+22 D+33 h+66 m+200 s+300").toOption.map
        (fun ts => Exec ts (utc 2020 6 13 14 55 22))
      = some (utc 2023 5 19 12 20 22) := by decide

/-! ### C7 -/

set_option maxRecDepth 40000 in
/-- C7 counterexample: the claim's "parses successfully iff the trimmed
string is composed of unit clauses" fails in the forward direction:
`"D0"` is one well-formed clause (letter `D`, digits `"0"`), yet `New`
rejects it (zero absolute day), so grammatical coverage does not imply a
successful parse. -/
theorem parse_success_iff_grammar_cex :
    ("D0" : String) ≠ "" ∧ GrammarOK "D0" ∧ isOkB (build "D0") = false := by
  refine ⟨by decide, ⟨by decide, ?_⟩, by decide⟩
  have h1 : IsClause ['D', '0'] :=
    ⟨[], 'D', [], [], ['0'], [], rfl, by simp, by decide, Or.inl rfl, Or.inl rfl,
      by simp, by decide, by simp⟩
  have h2 := Clauses.cons h1 Clauses.nil
  simpa using h2

/-- C7 amended: for every non-empty pattern, `New` fails with the generic
syntax error naming the raw pattern exactly when the string is not
entirely composed of unit clauses `<ws?><unitLetter><anchor?><sign?><digits><ws?>`;
when it is so composed, `New` never returns the syntax error (though the
later sequence/value checks may still reject the pattern). -/
theorem syntax_error_iff_not_grammar (p : String) (hp : p ≠ "") :
    build p = .error (.illegalPattern p) ↔ ¬ GrammarOK p := by
  have hdata : p.data ≠ [] := by
    intro hnil
    exact hp (String.ext_iff.mpr (by rw [hnil]))
  unfold build
  rw [if_neg hp]
  rcases hpt : patTokens p with _ | toks
  · constructor
    · intro _ hg
      obtain ⟨_, hcl⟩ := hg
      have hcomplete :=
        tokenizeAux_complete p.data.length p.data (le_refl _) hcl (p.data.length + 1)
          (by omega)
      exact hcomplete hpt
    · intro _
      rfl
  · constructor
    · intro hc
      exact absurd hc (buildLoop_not_illegalPattern toks 0 zeroTS p)
    · intro hng
      exact absurd ⟨hdata, tokenizeAux_sound (p.data.length + 1) p.data toks hpt⟩ hng

theorem syntax_error_iff_not_grammar_witness :
    ("Z" : String) ≠ "" ∧
    (build "Z" = .error (.illegalPattern "Z") ↔ ¬ GrammarOK "Z") :=
  ⟨by decide, syntax_error_iff_not_grammar "Z" (by decide)⟩

/-! ### C8 -/

set_option maxRecDepth 40000 in
/-- C8: every listed illegal input is rejected: zero day/month/week,
weekday above 6, an anchor with a relative sign (both anchors, both
signs), a double anchor, and out-of-order (or duplicated) units. -/
theorem illegal_inputs_rejected :
    isOkB (build "D0") = false ∧ isOkB (build "M0") = false ∧ isOkB (build "W0") = false ∧
    isOkB (build "w8") = false ∧ isOkB (build "W^+0") = false ∧
    isOkB (build "W$+2") = false ∧ isOkB (build "W^-2") = false ∧
    isOkB (build "W$^2") = false ∧
    isOkB (build "M1 Y2 D$-3 h-4 m+5 s6") = false := by decide

/-! ### C9 -/

/-- C9: when parsing fails, `New` returns the error with no spec, and the
cache is returned unchanged even when caching is enabled (a failed parse
never stores an entry). -/
theorem parse_failure_no_cache (p : String) (cached : Bool)
    (cache : List (String × TimeShift)) (e : NewErr)
    (hb : build p = .error e) (hm : cached = true → lookupCache cache p = none) :
    New p cached cache = (.error e, cache) := by
  unfold New
  cases cached with
  | false => simp [hb]
  | true => simp [hm rfl, hb]

theorem parse_failure_no_cache_witness :
    build "D0" = .error .illegalDay ∧ New "D0" true [] = (.error .illegalDay, []) :=
  ⟨by decide, parse_failure_no_cache "D0" true [] .illegalDay (by decide) (fun _ => rfl)⟩

/-! ### C10 -/

set_option maxRecDepth 40000 in
/-- C10: a clause whose digit string exceeds 2^31 − 1 is not rejected; the
`ParseInt` range error is dropped and the stored value is the saturated
32-bit maximum 2147483647, negated under a `-` sign. -/
theorem overrange_magnitude_clamped :
    (build "Y99999999999").toOption.map (fun ts => ts.year)
        = some ⟨true, 2147483647, true, false, false⟩ ∧
    (build "Y-99999999999").toOption.map (fun ts => ts.year)
        = some ⟨true, -2147483647, false, false, false⟩ := by decide

end Timeshift
